import Mathlib

/-!
Verification of the raphael-rs solver stack against its specification.

The definitions below are shallow embeddings of the Rust sources:
* `solvers/src/utils/pareto_front_builder.rs` (Pareto front builder),
* `solvers/src/quality_upper_bound_solver/solver.rs` (upper-bound query),
* `solvers/src/actions.rs` (solver action combos),
* `solvers/src/macro_solver/solver.rs` (branch-and-bound search driver).
Machine integers (`u16`, `usize`) are embedded as `Nat` (with explicit
saturation where the source saturates), `i8`/`i16` as `Int`.  Imperative
loops are embedded as fuel-indexed structural recursions; every call site
supplies enough fuel for the loop to run to completion.
-/

namespace Raphael

/-- A point of a 2-D Pareto front (`ParetoValue` in
`pareto_front_builder.rs`); the solvers instantiate both coordinates at
`u16`, embedded as `Nat`. -/
structure ParetoValue where
  first : Nat
  second : Nat
deriving DecidableEq

instance : Inhabited ParetoValue := ⟨⟨0, 0⟩⟩

/-- Identifier of a saved front: `(offset, length)` into the storage arena
(`ParetoFrontId` in `pareto_front_builder.rs`). -/
structure ParetoFrontId where
  offset : Nat
  length : Nat
deriving DecidableEq

/-- State of `ParetoFrontBuilder`.  The Rust `segments` vector pushes the
top segment at the end; here the stack is stored with the top segment's
begin index at the head of the list. -/
structure ParetoFrontBuilder where
  buffer : List ParetoValue
  segments : List Nat
  storage : List ParetoValue
  max_first : Nat
  max_second : Nat
deriving DecidableEq

namespace ParetoFrontBuilder

/-- `ParetoFrontBuilder::new`. -/
def new (max_first max_second : Nat) : ParetoFrontBuilder :=
  ⟨[], [], [], max_first, max_second⟩

/-- `ParetoFrontBuilder::push_empty`. -/
def push_empty (B : ParetoFrontBuilder) : ParetoFrontBuilder :=
  { B with segments := B.buffer.length :: B.segments }

/-- `ParetoFrontBuilder::push_slice`: the new segment begin is recorded
before the values are appended. -/
def push_slice (B : ParetoFrontBuilder) (values : List ParetoValue) : ParetoFrontBuilder :=
  { B with segments := B.buffer.length :: B.segments,
           buffer := B.buffer ++ values }

/-- `ParetoFrontBuilder::retrieve`. -/
def retrieve (B : ParetoFrontBuilder) (id : ParetoFrontId) : List ParetoValue :=
  (B.storage.drop id.offset).take id.length

/-- `ParetoFrontBuilder::push_id`: pushes a stored segment back on the
stack. -/
def push_id (B : ParetoFrontBuilder) (id : ParetoFrontId) : ParetoFrontBuilder :=
  B.push_slice (B.retrieve id)

/-- `ParetoFrontBuilder::peek`. -/
def peek (B : ParetoFrontBuilder) : Option (List ParetoValue) :=
  match B.segments with
  | s :: _ => some (B.buffer.drop s)
  | [] => none

/-- Modelled from the spec: the builder API used by the solvers includes a
`map` operation (apply a shift to every point of the top segment); the
version of `pareto_front_builder.rs` under src exposes the equivalent
`peek_mut`. -/
def map (B : ParetoFrontBuilder) (f : ParetoValue → ParetoValue) : ParetoFrontBuilder :=
  match B.segments with
  | s :: _ => { B with buffer := B.buffer.take s ++ (B.buffer.drop s).map f }
  | [] => B

/-- `ParetoFrontBuilder::save`: appends the top segment to storage and
returns its identifier (`None` when there is no segment). -/
def save (B : ParetoFrontBuilder) : Option (ParetoFrontId × ParetoFrontBuilder) :=
  match B.segments with
  | s :: _ =>
      some (⟨B.storage.length, B.buffer.length - s⟩,
            { B with storage := B.storage ++ B.buffer.drop s })
  | [] => none

end ParetoFrontBuilder

/-- The inner loop of `ParetoFrontBuilder::find_first_non_dominated`.
`la`/`lb` are the lengths of the two full operand segments, the two list
arguments are the remaining suffixes, `ia`/`ib` the current indices.  The
fuel strictly exceeds the number of loop iterations at every call site. -/
def fnd_loop (la lb : Nat) :
    Nat → List ParetoValue → List ParetoValue → Nat → Nat → Nat × Nat
  | 0, _, _, ia, ib => (ia, ib)
  | _ + 1, [], _, _, ib => (la, ib)
  | _ + 1, _ :: _, [], _, _ => (la, lb)
  | fuel + 1, av :: ra, bv :: rb, ia, ib =>
    if bv.first ≤ av.first ∧ bv.second ≤ av.second then
      match rb with
      | [] => (la, lb)
      | _ :: _ => fnd_loop la lb fuel (av :: ra) rb ia (ib + 1)
    else if av.second ≤ bv.second then (ia, ib)
    else fnd_loop la lb fuel ra (bv :: rb) (ia + 1) ib

/-- `ParetoFrontBuilder::find_first_non_dominated`: first element of
`b` not dominated by an element of `a`; returns the pair of indices
`(idx_a, idx_b)` exactly as the Rust loop does. -/
def find_first_non_dominated (a b : List ParetoValue) : Nat × Nat :=
  if b.isEmpty then (a.length, b.length)
  else fnd_loop a.length b.length (a.length + b.length + 1) a b 0 0

/-- The loop of `ParetoFrontBuilder::merge_mixed`: merge two fronts with a
rolling maximum of `first` (`try_insert` keeps a point only when its
`first` exceeds the rolling maximum).  The match arms are in the order of
the Rust `match` on `(a.first.cmp(&b.first), a.second.cmp(&b.second))`. -/
def merge_mixed_loop :
    Nat → List ParetoValue → List ParetoValue → Nat → List ParetoValue
  | 0, _, _, _ => []
  | _ + 1, [], [], _ => []
  | fuel + 1, av :: ra, [], rmax =>
    if rmax < av.first then av :: merge_mixed_loop fuel ra [] av.first
    else merge_mixed_loop fuel ra [] rmax
  | fuel + 1, [], bv :: rb, rmax =>
    if rmax < bv.first then bv :: merge_mixed_loop fuel [] rb bv.first
    else merge_mixed_loop fuel [] rb rmax
  | fuel + 1, av :: ra, bv :: rb, rmax =>
    if bv.second < av.second then
      -- arm `(_, Greater)`: insert the a-point, advance a
      if rmax < av.first then av :: merge_mixed_loop fuel ra (bv :: rb) av.first
      else merge_mixed_loop fuel ra (bv :: rb) rmax
    else if bv.first < av.first ∧ av.second = bv.second then
      -- arm `(Greater, Equal)`: insert the a-point, advance both
      if rmax < av.first then av :: merge_mixed_loop fuel ra rb av.first
      else merge_mixed_loop fuel ra rb rmax
    else if av.second = bv.second then
      -- arm `(_, Equal)`: insert the b-point, advance both
      if rmax < bv.first then bv :: merge_mixed_loop fuel ra rb bv.first
      else merge_mixed_loop fuel ra rb rmax
    else
      -- arm `(_, _)`: insert the b-point, advance b
      if rmax < bv.first then bv :: merge_mixed_loop fuel (av :: ra) rb bv.first
      else merge_mixed_loop fuel (av :: ra) rb rmax

/-- `ParetoFrontBuilder::merge_mixed` on the remaining suffixes of the two
operand segments. -/
def merge_mixed (a b : List ParetoValue) (rmax : Nat) : List ParetoValue :=
  merge_mixed_loop (a.length + b.length) a b rmax

/-- One of the two truncation loops at the end of
`ParetoFrontBuilder::merge`: while the list has at least two elements and
the second element satisfies `p`, drop the head. -/
def trunc_loop (p : ParetoValue → Bool) : List ParetoValue → List ParetoValue
  | x :: y :: r => if p y then trunc_loop p (y :: r) else x :: y :: r
  | l => l

namespace ParetoFrontBuilder

/-- `ParetoFrontBuilder::merge`: merge the two top segments into their
Pareto union and truncate at both caps.  With fewer than two segments the
Rust code panics; the model returns the builder unchanged (the reachable
states of claim C6 always have two segments here). -/
def merge (B : ParetoFrontBuilder) : ParetoFrontBuilder :=
  match B.segments with
  | begin_b :: begin_a :: rest =>
    let slice_a := (B.buffer.drop begin_a).take (begin_b - begin_a)
    let slice_b := B.buffer.drop begin_b
    let ab := find_first_non_dominated slice_a slice_b
    if slice_b.length ≤ ab.2 then
      { B with buffer := B.buffer.take begin_b, segments := begin_a :: rest }
    else
      let c :=
        if slice_a.length ≤ ab.1 then slice_a ++ slice_b.drop ab.2
        else
          let mv := (slice_b.drop ab.2).headI
          slice_a.take ab.1 ++ mv ::
            merge_mixed (slice_a.drop ab.1) (slice_b.drop (ab.2 + 1)) mv.first
      let c₂ := trunc_loop (fun y => B.max_second ≤ y.second) c
      let c₃ := (trunc_loop (fun y => B.max_first ≤ y.first) c₂.reverse).reverse
      { B with buffer := B.buffer.take begin_a ++ c₃, segments := begin_a :: rest }
  | _ => B

end ParetoFrontBuilder

/-! ## Quality upper-bound query
Embeds the query part of `QualityUpperBoundSolver::quality_upper_bound`
(`quality_upper_bound_solver/solver.rs`, lines 82-126): the memoized
Pareto front retrieved for the reduced state is handed in as `front`. -/

/-- `u16::saturating_add`. -/
def saturating_add_u16 (x y : Nat) : Nat := min (x + y) 65535

/-- The loop of Rust's `slice::binary_search_by_key` specialised to the
key extractor `|value| value.first`: bisect `[left, right)`. -/
def binary_search_loop (front : List ParetoValue) (key : Nat) :
    Nat → Nat → Nat → Nat
  | 0, left, _ => left
  | fuel + 1, left, right =>
    if left < right then
      let mid := left + (right - left) / 2
      match compare (front.getD mid default).first key with
      | .lt => binary_search_loop front key fuel (mid + 1) right
      | .gt => binary_search_loop front key fuel left mid
      | .eq => mid
    else left

/-- `front.binary_search_by_key(&key, |value| value.first)`, with the
`Ok(i)` and `Err(i)` outcomes both mapped to `i` exactly as the query
does. -/
def binary_search_by_key_first (front : List ParetoValue) (key : Nat) : Nat :=
  binary_search_loop front key (front.length + 1) 0 front.length

/-- Query part of `QualityUpperBoundSolver::quality_upper_bound`: check
the last point of the front against the missing progress
(`max_progress.saturating_sub(progress)`), binary-search the front, and
cap the answer at `max_quality`. -/
def quality_upper_bound_query (max_progress max_quality : Nat)
    (front : List ParetoValue) (progress quality : Nat) : Nat :=
  let missing_progress := max_progress - progress
  match front.getLast? with
  | none => 0
  | some element =>
    if element.first < missing_progress then 0
    else
      let index := binary_search_by_key_first front missing_progress
      min max_quality (saturating_add_u16 (front.getD index default).second quality)

/-- The query rule as the specification states it: find the first front
point whose progress covers the missing progress and return
`min(max_quality, quality + point.second)`; `0` when no point covers it. -/
def quality_upper_bound_rule (max_progress max_quality : Nat)
    (front : List ParetoValue) (progress quality : Nat) : Nat :=
  match front.find? (fun v => max_progress - progress ≤ v.first) with
  | some v => min max_quality (quality + v.second)
  | none => 0

/-! ## Simulation state
Modelled from the spec: the `simulator` crate (`SimulationState`,
`Effects`, `use_action`) is not under src (only its tests and callers
are); the data model follows spec section 3 and the transition rules
spec section 4.A, at the solver's fixed `Normal` condition. -/

/-- Single-use effect state (`SingleUse` in the simulator). -/
inductive SingleUse where
  | Unused
  | Active
  | Unavailable
deriving DecidableEq

/-- Combo slot (`Combo` in the simulator). -/
inductive Combo where
  | None
  | SynthesisBegin
  | BasicTouch
  | StandardTouch
deriving DecidableEq

/-- The bit-packed `Effects` record, embedded field by field (spec
section 3): timed buffs, inner-quiet stacks, the adversarial guard and
the single-use flags. -/
structure Effects where
  inner_quiet : Nat
  innovation : Nat
  veneration : Nat
  great_strides : Nat
  muscle_memory : Nat
  waste_not : Nat
  manipulation : Nat
  guard : Nat
  heart_and_soul : SingleUse
  trained_perfection : SingleUse
  quick_innovation_available : Bool
deriving DecidableEq

/-- All-zero effects record. -/
def Effects.initial : Effects :=
  ⟨0, 0, 0, 0, 0, 0, 0, 0, SingleUse.Unused, SingleUse.Unused, true⟩

/-- The numeric part of `Settings` (spec sections 3 and 6). -/
structure SimSettings where
  max_cp : Int
  max_durability : Int
  max_progress : Nat
  max_quality : Nat
  base_progress : Nat
  base_quality : Nat
deriving DecidableEq

/-- `SimulationState` (spec section 3): progress/quality counters,
durability, CP, effects and the combo slot. -/
structure SimulationState where
  progress : Nat
  quality : Nat
  unreliable_quality : Nat
  durability : Int
  cp : Int
  effects : Effects
  combo : Combo
deriving DecidableEq

/-- `SimulationState::new` (spec section 6): full durability and CP, the
initial combo slot open for synthesis openers. -/
def SimulationState.new (settings : SimSettings) : SimulationState :=
  ⟨0, 0, 0, settings.max_durability, settings.max_cp, Effects.initial,
   Combo.SynthesisBegin⟩

/-- Modelled from the spec: the per-action data of the simulator's action
table (base CP cost, base durability cost, progress and quality
coefficients in hundredths, spec section 4.A). -/
structure ActionDef where
  cp_cost : Int
  base_durability_cost : Int
  progress_coeff : Nat
  quality_coeff : Nat
deriving DecidableEq

/-- Effective durability cost at `Normal` condition: an active WasteNot
halves the base cost rounded up (spec section 4.A). -/
def effective_durability_cost (e : Effects) (a : ActionDef) : Int :=
  if 0 < e.waste_not then a.base_durability_cost - a.base_durability_cost / 2
  else a.base_durability_cost

/-- Progress multiplier in halves: 1 + 0.5 for Veneration + 1.0 for
Muscle Memory (spec section 4.A). -/
def progress_multiplier_halves (e : Effects) : Nat :=
  2 + (if 0 < e.muscle_memory then 2 else 0) + (if 0 < e.veneration then 1 else 0)

/-- Progress gained by an action at `Normal` condition. -/
def progress_increase (settings : SimSettings) (e : Effects) (a : ActionDef) : Nat :=
  settings.base_progress * a.progress_coeff / 100 * progress_multiplier_halves e / 2

/-- Quality multiplier in halves: 1 + 0.5 for Innovation + 1.0 for Great
Strides (spec section 4.A). -/
def quality_multiplier_halves (e : Effects) : Nat :=
  2 + (if 0 < e.innovation then 1 else 0) + (if 0 < e.great_strides then 2 else 0)

/-- Quality gained by an action at `Normal` condition, scaled by the
inner-quiet stack. -/
def quality_increase (settings : SimSettings) (e : Effects) (a : ActionDef) : Nat :=
  settings.base_quality * a.quality_coeff / 100 * (10 + e.inner_quiet) / 10 *
    quality_multiplier_halves e / 2

/-- `tick_down` on the timed effects (spec section 4.A): every timed
counter decreases by one, not below zero. -/
def Effects.tick_down (e : Effects) : Effects :=
  { e with veneration := e.veneration - 1,
           innovation := e.innovation - 1,
           waste_not := e.waste_not - 1,
           manipulation := e.manipulation - 1,
           great_strides := e.great_strides - 1,
           muscle_memory := e.muscle_memory - 1 }

/-- Modelled from the spec: `use_action` at `Normal` condition for an
action without special effect payloads (spec section 4.A).  Legality
requires positive durability and enough CP; Trained Perfection absorbs a
positive durability cost and toggles to `Unavailable`, and stays `Active`
through an action of zero durability cost (spec invariants 6 and 7);
Muscle Memory is consumed by progress actions, Great Strides by quality
actions, then the timed effects tick down and Manipulation restores
durability. -/
def use_action (settings : SimSettings) (s : SimulationState) (a : ActionDef) :
    Option SimulationState :=
  if s.durability ≤ 0 then none
  else if s.cp < a.cp_cost then none
  else
    let dur0 : Int := effective_durability_cost s.effects a
    let absorbed : Bool :=
      decide (s.effects.trained_perfection = SingleUse.Active ∧ 0 < dur0)
    let dur_cost : Int := if absorbed then 0 else dur0
    let pg := progress_increase settings s.effects a
    let qg := quality_increase settings s.effects a
    let e1 : Effects := { s.effects with
      muscle_memory := if a.progress_coeff ≠ 0 then 0 else s.effects.muscle_memory,
      great_strides := if a.quality_coeff ≠ 0 then 0 else s.effects.great_strides,
      inner_quiet := if a.quality_coeff ≠ 0 then min (s.effects.inner_quiet + 1) 10
                     else s.effects.inner_quiet,
      trained_perfection := if absorbed then SingleUse.Unavailable
                            else s.effects.trained_perfection }
    let e2 := e1.tick_down
    let dura : Int := s.durability - dur_cost
    let dura : Int := if 0 < e2.manipulation ∧ 0 < dura then
        min (dura + 5) settings.max_durability else dura
    some { progress := min (s.progress + pg) settings.max_progress,
           quality := min (s.quality + qg) settings.max_quality,
           unreliable_quality := s.unreliable_quality,
           durability := dura,
           cp := s.cp - a.cp_cost,
           effects := e2,
           combo := Combo.None }

/-- `BasicSynthesis`: no CP cost, base durability cost 10, progress
coefficient 120 (spec scenario 1 and the action table). -/
def basic_synthesis : ActionDef := ⟨0, 10, 120, 0⟩

/-- `Observe`: CP cost 7, zero durability cost, no yields. -/
def observe : ActionDef := ⟨7, 0, 0, 0⟩

/-- The settings of the Trained Perfection scenario
(`simulator/tests/effect_tests.rs`). -/
def effect_test_settings : SimSettings := ⟨250, 60, 2000, 40000, 100, 100⟩

/-- The start state of the Trained Perfection scenario: the default state
with `trained_perfection` set to `Active`. -/
def trained_perfection_start : SimulationState :=
  { SimulationState.new effect_test_settings with
    effects := { Effects.initial with trained_perfection := SingleUse.Active } }

/-! ## Solver actions
Embeds `solvers/src/actions.rs`: the action-combo catalogue, the
progress-only classification and `use_action_combo`.  The simulator's
transition function is a parameter (`ua`), standing for
`SimulationState::use_action` at `Condition::Normal`. -/

/-- The `Action` enumeration of the simulator crate, as listed by
`ActionCombo::actions` in `solvers/src/actions.rs`. -/
inductive Action where
  | BasicSynthesis
  | BasicTouch
  | MasterMend
  | Observe
  | TricksOfTheTrade
  | WasteNot
  | Veneration
  | StandardTouch
  | GreatStrides
  | Innovation
  | WasteNot2
  | ByregotsBlessing
  | PreciseTouch
  | MuscleMemory
  | CarefulSynthesis
  | Manipulation
  | PrudentTouch
  | AdvancedTouch
  | Reflect
  | PreparatoryTouch
  | Groundwork
  | DelicateSynthesis
  | IntensiveSynthesis
  | TrainedEye
  | HeartAndSoul
  | PrudentSynthesis
  | TrainedFinesse
  | RefinedTouch
  | QuickInnovation
  | ImmaculateMend
  | TrainedPerfection
deriving DecidableEq

/-- `ActionCombo` (`solvers/src/actions.rs`): six named multi-action
combos plus single actions. -/
inductive ActionCombo where
  | TricksOfTheTrade
  | IntensiveSynthesis
  | PreciseTouch
  | StandardTouch
  | AdvancedTouch
  | FocusedTouch
  | RefinedTouch
  | Single (action : Action)
deriving DecidableEq

/-- `ActionCombo::actions`. -/
def ActionCombo.actions : ActionCombo → List Action
  | .TricksOfTheTrade => [.HeartAndSoul, .TricksOfTheTrade]
  | .IntensiveSynthesis => [.HeartAndSoul, .IntensiveSynthesis]
  | .PreciseTouch => [.HeartAndSoul, .PreciseTouch]
  | .StandardTouch => [.BasicTouch, .StandardTouch]
  | .AdvancedTouch => [.BasicTouch, .StandardTouch, .AdvancedTouch]
  | .FocusedTouch => [.Observe, .AdvancedTouch]
  | .RefinedTouch => [.BasicTouch, .RefinedTouch]
  | .Single a => [a]

/-- `SolverSettings` of the solvers crate as used by
`solvers/src/actions.rs`. -/
structure SolverSettings where
  simulator_settings : SimSettings
  backload_progress : Bool
  allow_unsound_branch_pruning : Bool

/-- `is_progress_only_state` (`solvers/src/actions.rs`, lines 168-182). -/
def is_progress_only_state (settings : SolverSettings) (state : SimulationState) : Bool :=
  if settings.backload_progress ∧ state.progress ≠ 0 then true
  else if settings.allow_unsound_branch_pruning then
    if settings.backload_progress ∧ state.effects.veneration ≠ 0 then true
    else if state.quality ≠ 0 ∧ state.effects.inner_quiet = 0 then true
    else false
  else false

/-- Apply a list of actions in order through the simulator transition
`ua`, failing as soon as one application fails (the `for` loop of
`use_action_combo`). -/
def apply_actions (ua : SimulationState → Action → Option SimulationState) :
    SimulationState → List Action → Option SimulationState
  | s, [] => some s
  | s, a :: rest =>
    match ua s a with
    | some s' => apply_actions ua s' rest
    | none => none

/-- `use_action_combo` (`solvers/src/actions.rs`, lines 184-203): apply
the combo's primitive actions, strip all quality-only data from
progress-only states, and reset the combo slot. -/
def use_action_combo (settings : SolverSettings)
    (ua : SimulationState → Action → Option SimulationState)
    (state : SimulationState) (combo : ActionCombo) : Option SimulationState :=
  match apply_actions ua state combo.actions with
  | none => none
  | some s =>
    let s := if is_progress_only_state settings s then
        { s with unreliable_quality := 0,
                 effects := { s.effects with
                   inner_quiet := 0,
                   innovation := 0,
                   great_strides := 0,
                   guard := 0,
                   quick_innovation_available := false } }
      else s
    some { s with combo := Combo.None }

/-! ## Branch-and-bound driver
Embeds `MacroSolver::solve` / `MacroSolver::do_solve`
(`solvers/src/macro_solver/solver.rs`).  Modelled from the spec: the
search queue and backtrack store (spec section 4.H) are not under src;
nodes carry an id into a log of `(parent id, action)` entries and paths
are reconstructed by walking parents back to the root.  The simulator,
the finish solver and the two bound solvers enter as parameters: the
bound solvers only influence the pop order and which pushes are kept, so
the pop order is an arbitrary selector `sel` and the finish-solver filter
an arbitrary predicate `can_finish`. -/

/-- The parameters of the branch-and-bound search: the simulator
transition at `Normal` condition, finality and progress of states, the
finish-solver filter, the per-state action list and the incumbent
comparison (`solution.score < (solution_score, quality)`). -/
structure SearchModel (σ : Type) (α : Type) where
  use_action : σ → α → Option σ
  is_final : σ → Bool
  can_finish : σ → Bool
  progress : σ → Nat
  max_progress : Nat
  search_actions : σ → List α
  accept : Option (List α) → σ → Bool

/-- The mutable state of `do_solve`: the frontier of `(state, backtrack
id)` nodes, the backtrack log (entry `i` holds the parent id and the
action that produced node `i`; the root entry is `(none, none)`), and the
incumbent solution. -/
structure LoopState (σ : Type) (α : Type) where
  frontier : List (σ × Nat)
  log : List (Option Nat × Option α)
  solution : Option (List α)

/-- Walk the backtrack log from a node to the root, collecting the
actions in root-to-node order (`SearchQueue::backtrack`).  Parent ids are
strictly smaller than child ids, so fuel `id + 1` always reaches the
root. -/
def backtrack_loop {α : Type} (log : List (Option Nat × Option α)) :
    Nat → Nat → List α
  | 0, _ => []
  | fuel + 1, id =>
    match log.getD id (none, none) with
    | (some parent, some a) => backtrack_loop log fuel parent ++ [a]
    | _ => []

/-- `SearchQueue::backtrack`. -/
def backtrack {α : Type} (log : List (Option Nat × Option α)) (id : Nat) : List α :=
  backtrack_loop log (id + 1) id

/-- The body of the `for action in search_actions` loop of `do_solve`
for one popped node `(st, id)`: simulate the action, keep non-final
children that can still finish, and capture a final child with enough
progress as a solution via the backtrack store. -/
def expand_node {σ α : Type} (m : SearchModel σ α) (st : σ) (id : Nat) :
    List α → LoopState σ α → LoopState σ α
  | [], ls => ls
  | a :: rest, ls =>
    let ls' :=
      match m.use_action st a with
      | none => ls
      | some child =>
        if !m.is_final child then
          if m.can_finish child then
            { ls with frontier := ls.frontier ++ [(child, ls.log.length)],
                      log := ls.log ++ [(some id, some a)] }
          else ls
        else if m.max_progress ≤ m.progress child then
          if ls.solution.isNone || m.accept ls.solution child then
            { ls with solution := some (backtrack ls.log id ++ [a]) }
          else ls
        else ls
    expand_node m st id rest ls'

/-- The `while let Some(...) = search_queue.pop()` loop of `do_solve`:
`sel` chooses which frontier node the priority queue yields next; when
the frontier is empty the incumbent solution is returned.  The fuel
bounds the number of pops; a run of the Rust loop corresponds to a large
enough fuel. -/
def search_loop {σ α : Type} (m : SearchModel σ α) (sel : Nat → Nat) :
    Nat → LoopState σ α → Option (List α)
  | 0, ls => ls.solution
  | fuel + 1, ls =>
    match ls.frontier with
    | [] => ls.solution
    | x :: rest =>
      let fr := x :: rest
      let i := sel fuel % fr.length
      let node := fr.getD i x
      let ls' := expand_node m node.1 node.2 (m.search_actions node.1)
        { ls with frontier := fr.eraseIdx i }
      search_loop m sel fuel ls'

/-- `MacroSolver::do_solve`: seed the queue with the start state at the
root of the backtrack log and run the search loop. -/
def do_solve {σ α : Type} (m : SearchModel σ α) (sel : Nat → Nat) (fuel : Nat)
    (s0 : σ) : Option (List α) :=
  search_loop m sel fuel
    { frontier := [(s0, 0)], log := [(none, none)], solution := none }

/-- `MacroSolver::solve` (`solvers/src/macro_solver/solver.rs`, lines
58-71): if the finish solver rejects the start state, return the
no-solution result at once; otherwise run the main search. -/
def solve {σ α : Type} (m : SearchModel σ α) (sel : Nat → Nat) (fuel : Nat)
    (s0 : σ) : Option (List α) :=
  if m.can_finish s0 then do_solve m sel fuel s0 else none

/-- Replay an action sequence from a state through the simulator
transition, failing as soon as a step is illegal
(`SimulationState::from_macro`). -/
def replay {σ α : Type} (m : SearchModel σ α) : σ → List α → Option σ
  | s, [] => some s
  | s, a :: rest =>
    match m.use_action s a with
    | some s' => replay m s' rest
    | none => none

/-- Backtrack-log well-formedness: every parent pointer goes to a
strictly smaller id. -/
def LogWF {α : Type} (log : List (Option Nat × Option α)) : Prop :=
  ∀ i p a, log.getD i (none, none) = (some p, some a) → p < i

/-- The search invariant: the log is well-formed, every frontier node's
backtrack path replays from the start state to exactly that node's
state, and the incumbent solution replays to a final state with maxed
progress. -/
def SearchInv {σ α : Type} (m : SearchModel σ α) (s0 : σ) (ls : LoopState σ α) : Prop :=
  LogWF ls.log ∧
  (∀ x ∈ ls.frontier, x.2 < ls.log.length ∧
      replay m s0 (backtrack ls.log x.2) = some x.1) ∧
  (∀ acts, ls.solution = some acts → ∃ t, replay m s0 acts = some t ∧
      m.is_final t = true ∧ m.max_progress ≤ m.progress t)

/-- A one-action toy instance of the search model, used to witness the
round-trip theorem: state `0` steps to the final state `1`. -/
def toy_model : SearchModel Nat Unit where
  use_action := fun s _ => if s = 0 then some 1 else none
  is_final := fun s => s ≠ 0
  can_finish := fun _ => true
  progress := fun s => s
  max_progress := 1
  search_actions := fun _ => [()]
  accept := fun _ _ => true

/-- A toy model whose start state cannot finish, used to witness the
no-solution theorem. -/
def toy_model_unfinishable : SearchModel Nat Unit :=
  { toy_model with can_finish := fun _ => false }

/-! ## Pareto front validity
The invariant checked by `ParetoFrontBuilder::check_invariants`: within a
segment the `first` coordinates strictly increase and the `second`
coordinates strictly decrease. -/

/-- The strict dominance-order relation between consecutive points of a
valid front. -/
def StrictStep (x y : ParetoValue) : Prop := x.first < y.first ∧ y.second < x.second

instance : DecidableRel StrictStep := fun x y =>
  inferInstanceAs (Decidable (x.first < y.first ∧ y.second < x.second))

/-- A structurally recursive decision procedure for `List.Chain'`,
mirroring the `windows(2)` walk of `check_invariants`. -/
def decChain' {β : Type} (R : β → β → Prop) [DecidableRel R] :
    (l : List β) → Decidable (List.Chain' R l)
  | [] => isTrue List.chain'_nil
  | [x] => isTrue (List.chain'_singleton x)
  | _ :: y :: r =>
    @decidable_of_iff _ _ List.chain'_cons.symm
      (@instDecidableAnd _ _ _ (decChain' R (y :: r)))

instance {β : Type} {R : β → β → Prop} [DecidableRel R] (l : List β) :
    Decidable (List.Chain' R l) :=
  decChain' R l

/-- A valid Pareto front segment (`check_invariants`): every adjacent
pair strictly increases in `first` and strictly decreases in `second`. -/
def ValidFront (l : List ParetoValue) : Prop := l.Chain' StrictStep

instance (l : List ParetoValue) : Decidable (ValidFront l) :=
  decChain' StrictStep l

/-- The list of segment slices of a builder buffer, top segment first
(the slices `check_invariants` walks). -/
def segment_slices (buffer : List ParetoValue) : List Nat → List (List ParetoValue)
  | [] => []
  | s :: rest => buffer.drop s :: segment_slices (buffer.take s) rest

/-- The builder invariant: segment begins descend from the buffer length
(the `segments must have left-to-right ordering` assertion) and every
segment is a valid front. -/
def BuilderInv (B : ParetoFrontBuilder) : Prop :=
  List.Chain' (fun x y => y ≤ x) (B.buffer.length :: B.segments) ∧
  ∀ l ∈ segment_slices B.buffer B.segments, ValidFront l

instance (B : ParetoFrontBuilder) : Decidable (BuilderInv B) :=
  inferInstanceAs (Decidable (_ ∧ _))

/-- A saved-front identifier that is in range of the storage arena and
retrieves a valid front — exactly the ids handed out by `save` on a
builder satisfying the invariant. -/
def GoodId (B : ParetoFrontBuilder) (id : ParetoFrontId) : Prop :=
  id.offset + id.length ≤ B.storage.length ∧ ValidFront (B.retrieve id)

instance (B : ParetoFrontBuilder) (id : ParetoFrontId) : Decidable (GoodId B id) :=
  inferInstanceAs (Decidable (_ ∧ _))

/-- One builder operation on valid inputs: pushed slices are valid
fronts, pushed ids were handed out by `save`, mapped functions preserve
the strict dominance order, and `merge` is only invoked with at least two
segments (otherwise the Rust code panics). -/
inductive BuilderStep : ParetoFrontBuilder → ParetoFrontBuilder → Prop where
  | push_empty (B : ParetoFrontBuilder) : BuilderStep B B.push_empty
  | push_slice (B : ParetoFrontBuilder) (values : List ParetoValue)
      (h : ValidFront values) : BuilderStep B (B.push_slice values)
  | push_id (B : ParetoFrontBuilder) (id : ParetoFrontId) (h : GoodId B id) :
      BuilderStep B (B.push_id id)
  | map (B : ParetoFrontBuilder) (f : ParetoValue → ParetoValue)
      (hf : ∀ x y, StrictStep x y → StrictStep (f x) (f y)) :
      BuilderStep B (B.map f)
  | merge (B : ParetoFrontBuilder) (h : 2 ≤ B.segments.length) :
      BuilderStep B B.merge
  | save (B : ParetoFrontBuilder) (id : ParetoFrontId) (B' : ParetoFrontBuilder)
      (h : B.save = some (id, B')) : BuilderStep B B'

/-- Any number of builder operations on valid inputs. -/
def BuilderReach : ParetoFrontBuilder → ParetoFrontBuilder → Prop :=
  Relation.ReflTransGen BuilderStep

/-- A sample valid front used by the witnesses. -/
def sample_front : List ParetoValue := [⟨100, 300⟩, ⟨200, 200⟩, ⟨300, 100⟩]

/-! ## Theorems -/

instance : IsTrans ParetoValue StrictStep :=
  ⟨fun _ _ _ h1 h2 => ⟨Nat.lt_trans h1.1 h2.1, Nat.lt_trans h2.2 h1.2⟩⟩

theorem validFront_pairwise {l : List ParetoValue} (h : ValidFront l) :
    l.Pairwise StrictStep :=
  List.chain'_iff_pairwise.mp h

theorem pairwise_validFront {l : List ParetoValue} (h : l.Pairwise StrictStep) :
    ValidFront l :=
  List.chain'_iff_pairwise.mpr h

theorem validFront_getElem {l : List ParetoValue} (h : ValidFront l) {i j : Nat}
    (hi : i < l.length) (hj : j < l.length) (hij : i < j) :
    StrictStep l[i] l[j] :=
  List.pairwise_iff_getElem.mp (validFront_pairwise h) i j hi hj hij

theorem validFront_le_getLast {l : List ParetoValue} (h : ValidFront l)
    {xl : ParetoValue} (hx : l.getLast? = some xl) :
    ∀ x ∈ l, x.first ≤ xl.first := by
  intro x hmem
  obtain ⟨i, hi, rfl⟩ := List.mem_iff_getElem.mp hmem
  rw [List.getLast?_eq_getElem? l] at hx
  have hlen : 0 < l.length := by omega
  have hlast : l[l.length - 1]? = some l[l.length - 1] := List.getElem?_eq_getElem (by omega)
  rw [hlast, Option.some.injEq] at hx
  rcases Nat.lt_or_ge i (l.length - 1) with hlt | hge
  · have := validFront_getElem h hi (by omega) hlt
    rw [hx] at this
    exact Nat.le_of_lt this.1
  · have : i = l.length - 1 := by omega
    subst this
    rw [hx]

theorem validFront_tail {x : ParetoValue} {l : List ParetoValue}
    (h : ValidFront (x :: l)) : ValidFront l :=
  List.Chain'.tail h

theorem validFront_cons_rel {x : ParetoValue} {l : List ParetoValue}
    (h : ValidFront (x :: l)) : ∀ y ∈ l, StrictStep x y :=
  (List.pairwise_cons.mp (validFront_pairwise h)).1

theorem validFront_cons_of {x : ParetoValue} {l : List ParetoValue}
    (hrel : ∀ y ∈ l, StrictStep x y) (h : ValidFront l) :
    ValidFront (x :: l) :=
  pairwise_validFront (List.pairwise_cons.mpr ⟨hrel, validFront_pairwise h⟩)

/-- One `try_insert` step of `merge_mixed`: inserting `x` (when its
`first` beats the rolling maximum) in front of the recursive merge of the
advanced suffixes preserves the guard, the provenance of the points, and
front validity — provided every remaining point lies strictly below `x`
in `second`. -/
theorem merge_mixed_try_insert {fuel : Nat}
    (ih : ∀ (a b : List ParetoValue) (rmax : Nat),
      a.length + b.length ≤ fuel → ValidFront a → ValidFront b →
      (∀ x ∈ merge_mixed_loop fuel a b rmax, rmax < x.first ∧ (x ∈ a ∨ x ∈ b)) ∧
        ValidFront (merge_mixed_loop fuel a b rmax))
    (x : ParetoValue) (a' b' : List ParetoValue) (rmax : Nat)
    (hfuel : a'.length + b'.length ≤ fuel)
    (hva : ValidFront a') (hvb : ValidFront b')
    (hsec : ∀ y, y ∈ a' ∨ y ∈ b' → y.second < x.second) :
    (∀ z ∈ (if rmax < x.first then x :: merge_mixed_loop fuel a' b' x.first
            else merge_mixed_loop fuel a' b' rmax),
        rmax < z.first ∧ (z = x ∨ z ∈ a' ∨ z ∈ b')) ∧
      ValidFront (if rmax < x.first then x :: merge_mixed_loop fuel a' b' x.first
                  else merge_mixed_loop fuel a' b' rmax) := by
  by_cases hins : rmax < x.first
  · simp only [if_pos hins]
    obtain ⟨hmem, hv⟩ := ih a' b' x.first hfuel hva hvb
    constructor
    · intro z hz
      rcases List.mem_cons.mp hz with rfl | hz'
      · exact ⟨hins, Or.inl rfl⟩
      · obtain ⟨hg, hm⟩ := hmem z hz'
        exact ⟨Nat.lt_trans hins hg, Or.inr hm⟩
    · exact validFront_cons_of
        (fun y hy => ⟨(hmem y hy).1, hsec y (hmem y hy).2⟩) hv
  · simp only [if_neg hins]
    obtain ⟨hmem, hv⟩ := ih a' b' rmax hfuel hva hvb
    exact ⟨fun z hz => ⟨(hmem z hz).1, Or.inr (hmem z hz).2⟩, hv⟩

/-- The `merge_mixed` loop yields a valid front of points drawn from its
operands, all of them above the rolling maximum in `first`. -/
theorem merge_mixed_loop_spec :
    ∀ (fuel : Nat) (a b : List ParetoValue) (rmax : Nat),
      a.length + b.length ≤ fuel → ValidFront a → ValidFront b →
      (∀ x ∈ merge_mixed_loop fuel a b rmax, rmax < x.first ∧ (x ∈ a ∨ x ∈ b)) ∧
        ValidFront (merge_mixed_loop fuel a b rmax) := by
  intro fuel
  induction fuel with
  | zero =>
    intro a b rmax _ _ _
    simp only [merge_mixed_loop]
    exact ⟨by simp, List.chain'_nil⟩
  | succ fuel ih =>
    intro a b rmax hfuel hva hvb
    match a, b with
    | [], [] =>
      simp only [merge_mixed_loop]
      exact ⟨by simp, List.chain'_nil⟩
    | av :: ra, [] =>
      simp only [merge_mixed_loop]
      have hfuel' : ra.length + ([] : List ParetoValue).length ≤ fuel := by
        simp only [List.length_cons, List.length_nil] at hfuel ⊢; omega
      obtain ⟨hm, hv⟩ := merge_mixed_try_insert ih av ra [] rmax hfuel'
        (validFront_tail hva) List.chain'_nil
        (fun y hy => by
          rcases hy with hy | hy
          · exact (validFront_cons_rel hva y hy).2
          · exact absurd hy (List.not_mem_nil y))
      refine ⟨fun z hz => ⟨(hm z hz).1, ?_⟩, hv⟩
      rcases (hm z hz).2 with rfl | hz' | hz'
      · exact Or.inl (List.mem_cons_self z ra)
      · exact Or.inl (List.mem_cons_of_mem av hz')
      · exact Or.inr hz'
    | [], bv :: rb =>
      simp only [merge_mixed_loop]
      have hfuel' : ([] : List ParetoValue).length + rb.length ≤ fuel := by
        simp only [List.length_cons, List.length_nil] at hfuel ⊢; omega
      obtain ⟨hm, hv⟩ := merge_mixed_try_insert ih bv [] rb rmax hfuel'
        List.chain'_nil (validFront_tail hvb)
        (fun y hy => by
          rcases hy with hy | hy
          · exact absurd hy (List.not_mem_nil y)
          · exact (validFront_cons_rel hvb y hy).2)
      refine ⟨fun z hz => ⟨(hm z hz).1, ?_⟩, hv⟩
      rcases (hm z hz).2 with rfl | hz' | hz'
      · exact Or.inr (List.mem_cons_self z rb)
      · exact Or.inl hz'
      · exact Or.inr (List.mem_cons_of_mem bv hz')
    | av :: ra, bv :: rb =>
      simp only [merge_mixed_loop]
      have hlen : (av :: ra).length + (bv :: rb).length ≤ fuel + 1 := hfuel
      simp only [List.length_cons] at hlen
      by_cases h1 : bv.second < av.second
      · rw [if_pos h1]
        obtain ⟨hm, hv⟩ := merge_mixed_try_insert ih av ra (bv :: rb) rmax
          (by simp only [List.length_cons]; omega)
          (validFront_tail hva) hvb
          (fun y hy => by
            rcases hy with hy | hy
            · exact (validFront_cons_rel hva y hy).2
            · rcases List.mem_cons.mp hy with rfl | hy'
              · exact h1
              · exact Nat.lt_trans (validFront_cons_rel hvb y hy').2 h1)
        refine ⟨fun z hz => ⟨(hm z hz).1, ?_⟩, hv⟩
        rcases (hm z hz).2 with rfl | hz' | hz'
        · exact Or.inl (List.mem_cons_self z ra)
        · exact Or.inl (List.mem_cons_of_mem av hz')
        · exact Or.inr hz'
      · rw [if_neg h1]
        by_cases h2 : bv.first < av.first ∧ av.second = bv.second
        · rw [if_pos h2]
          obtain ⟨hm, hv⟩ := merge_mixed_try_insert ih av ra rb rmax
            (by omega) (validFront_tail hva) (validFront_tail hvb)
            (fun y hy => by
              rcases hy with hy | hy
              · exact (validFront_cons_rel hva y hy).2
              · have := (validFront_cons_rel hvb y hy).2
                omega)
          refine ⟨fun z hz => ⟨(hm z hz).1, ?_⟩, hv⟩
          rcases (hm z hz).2 with rfl | hz' | hz'
          · exact Or.inl (List.mem_cons_self z ra)
          · exact Or.inl (List.mem_cons_of_mem av hz')
          · exact Or.inr (List.mem_cons_of_mem bv hz')
        · rw [if_neg h2]
          by_cases h3 : av.second = bv.second
          · rw [if_pos h3]
            obtain ⟨hm, hv⟩ := merge_mixed_try_insert ih bv ra rb rmax
              (by omega) (validFront_tail hva) (validFront_tail hvb)
              (fun y hy => by
                rcases hy with hy | hy
                · have := (validFront_cons_rel hva y hy).2
                  omega
                · exact (validFront_cons_rel hvb y hy).2)
            refine ⟨fun z hz => ⟨(hm z hz).1, ?_⟩, hv⟩
            rcases (hm z hz).2 with rfl | hz' | hz'
            · exact Or.inr (List.mem_cons_self z rb)
            · exact Or.inl (List.mem_cons_of_mem av hz')
            · exact Or.inr (List.mem_cons_of_mem bv hz')
          · rw [if_neg h3]
            obtain ⟨hm, hv⟩ := merge_mixed_try_insert ih bv (av :: ra) rb rmax
              (by simp only [List.length_cons]; omega) hva (validFront_tail hvb)
              (fun y hy => by
                rcases hy with hy | hy
                · rcases List.mem_cons.mp hy with rfl | hy'
                  · omega
                  · have := (validFront_cons_rel hva y hy').2
                    omega
                · exact (validFront_cons_rel hvb y hy).2)
            refine ⟨fun z hz => ⟨(hm z hz).1, ?_⟩, hv⟩
            rcases (hm z hz).2 with rfl | hz' | hz'
            · exact Or.inr (List.mem_cons_self z rb)
            · exact Or.inl hz'
            · exact Or.inr (List.mem_cons_of_mem bv hz')

/-- `merge_mixed` specification at its call-site fuel. -/
theorem merge_mixed_spec (a b : List ParetoValue) (rmax : Nat)
    (hva : ValidFront a) (hvb : ValidFront b) :
    (∀ x ∈ merge_mixed a b rmax, rmax < x.first ∧ (x ∈ a ∨ x ∈ b)) ∧
      ValidFront (merge_mixed a b rmax) :=
  merge_mixed_loop_spec (a.length + b.length) a b rmax le_rfl hva hvb

theorem strictStep_trans {x y z : ParetoValue} (h1 : StrictStep x y)
    (h2 : StrictStep y z) : StrictStep x z :=
  ⟨Nat.lt_trans h1.1 h2.1, Nat.lt_trans h2.2 h1.2⟩

theorem validFront_sublist {l₁ l₂ : List ParetoValue}
    (hs : List.Sublist l₁ l₂) (h : ValidFront l₂) : ValidFront l₁ :=
  pairwise_validFront ((validFront_pairwise h).sublist hs)

theorem validFront_drop {l : List ParetoValue} (h : ValidFront l) (n : Nat) :
    ValidFront (l.drop n) :=
  validFront_sublist (List.drop_sublist n l) h

theorem validFront_take {l : List ParetoValue} (h : ValidFront l) (n : Nat) :
    ValidFront (l.take n) :=
  validFront_sublist (List.take_sublist n l) h

/-- The invariant of the `find_first_non_dominated` loop: the returned
pair `(ja, jb)` keeps `ja` in range; when `jb` is a real index of `b`, the
preceding a-point `a[ja-1]` strictly dominates `b[jb]` (the junction of
the merged segment), and at a middle return the current points satisfy
the non-domination exit conditions. -/
theorem fnd_loop_spec :
    ∀ (fuel : Nat) (a b ra rb : List ParetoValue) (ia ib : Nat),
      ra.length + rb.length ≤ fuel →
      a.drop ia = ra → b.drop ib = rb → ia ≤ a.length → rb ≠ [] →
      ValidFront a → ValidFront b →
      (ia ≠ 0 → ∀ ap bp, a[ia - 1]? = some ap → b[ib]? = some bp →
        StrictStep ap bp) →
      ∀ ja jb, fnd_loop a.length b.length fuel ra rb ia ib = (ja, jb) →
        ja ≤ a.length ∧
          (jb < b.length →
            (ja ≠ 0 → ∀ ap bp, a[ja - 1]? = some ap → b[jb]? = some bp →
              StrictStep ap bp) ∧
            (ja < a.length → ∀ ap bp, a[ja]? = some ap → b[jb]? = some bp →
              ap.second ≤ bp.second ∧
                (bp.second ≤ ap.second → ap.first < bp.first))) := by
  intro fuel
  induction fuel with
  | zero =>
    intro a b ra rb ia ib hfuel _ _ _ hrb _ _ _
    cases rb with
    | nil => exact absurd rfl hrb
    | cons bv rb' => simp only [List.length_cons] at hfuel; omega
  | succ fuel ih =>
    intro a b ra rb ia ib hfuel ha hb hia hrb hva hvb hjun
    cases ra with
    | nil =>
      intro ja jb heq
      simp only [fnd_loop] at heq
      cases rb with
      | nil => exact absurd rfl hrb
      | cons bv rb' =>
        injection heq with heq1 heq2
        subst heq1
        subst heq2
        have hia' : ia = a.length := by
          have := congrArg List.length ha
          simp only [List.length_drop, List.length_nil] at this
          omega
        subst hia'
        refine ⟨le_rfl, fun hjb => ⟨fun h0 => hjun h0, fun hlt => ?_⟩⟩
        exact absurd hlt (by omega)
    | cons av ra' =>
      cases rb with
      | nil => exact absurd rfl hrb
      | cons bv rb' =>
        have halen : (a.drop ia).length = a.length - ia := List.length_drop ia a
        have hblen : (b.drop ib).length = b.length - ib := List.length_drop ib b
        rw [ha] at halen
        rw [hb] at hblen
        simp only [List.length_cons] at halen hblen
        have hialt : ia < a.length := by omega
        have hiblt : ib < b.length := by omega
        have hav : a[ia]? = some av := by
          have h0 : (a.drop ia)[0]? = a[ia + 0]? := List.getElem?_drop a ia 0
          rw [ha] at h0
          simpa using h0.symm
        have hbv : b[ib]? = some bv := by
          have h0 : (b.drop ib)[0]? = b[ib + 0]? := List.getElem?_drop b ib 0
          rw [hb] at h0
          simpa using h0.symm
        intro ja jb heq
        simp only [fnd_loop] at heq
        by_cases hdom : bv.first ≤ av.first ∧ bv.second ≤ av.second
        · rw [if_pos hdom] at heq
          cases rb' with
          | nil =>
            injection heq with heq1 heq2
            subst heq1
            subst heq2
            exact ⟨le_rfl, fun hjb => absurd hjb (by omega)⟩
          | cons bv' rb'' =>
            have hb' : b.drop (ib + 1) = bv' :: rb'' := by
              have h1 : (b.drop ib).drop 1 = b.drop (ib + 1) := List.drop_drop 1 ib b
              rw [hb] at h1
              simpa using h1.symm
            have hbv' : b[ib + 1]? = some bv' := by
              have h0 : (b.drop (ib + 1))[0]? = b[ib + 1 + 0]? :=
                List.getElem?_drop b (ib + 1) 0
              rw [hb'] at h0
              simpa using h0.symm
            refine ih a b (av :: ra') (bv' :: rb'') ia (ib + 1) ?_ ha hb'
              (by omega) (by simp) hva hvb ?_ ja jb heq
            · simp only [List.length_cons] at hfuel ⊢; omega
            · intro h0 ap bp hap hbp
              rw [hbv'] at hbp
              injection hbp with hbp1
              subst hbp1
              have hrel1 := hjun h0 ap bv hap hbv
              have hrel2 : StrictStep bv bv' := by
                have hvd : ValidFront (bv :: bv' :: rb'') := by
                  rw [← hb]
                  exact validFront_drop hvb ib
                exact (List.chain'_cons.mp hvd).1
              exact strictStep_trans hrel1 hrel2
        · rw [if_neg hdom] at heq
          by_cases hle : av.second ≤ bv.second
          · rw [if_pos hle] at heq
            injection heq with heq1 heq2
            subst heq1
            subst heq2
            refine ⟨by omega, fun _ => ⟨fun h0 => hjun h0, fun _ ap bp hap hbp => ?_⟩⟩
            rw [hav] at hap
            rw [hbv] at hbp
            injection hap with hap1
            subst hap1
            injection hbp with hbp1
            subst hbp1
            refine ⟨hle, fun hge => ?_⟩
            have : ¬ (bv.first ≤ av.first) := fun hc => hdom ⟨hc, by omega⟩
            omega
          · rw [if_neg hle] at heq
            have ha' : a.drop (ia + 1) = ra' := by
              have h1 : (a.drop ia).drop 1 = a.drop (ia + 1) := List.drop_drop 1 ia a
              rw [ha] at h1
              simpa using h1.symm
            refine ih a b ra' (bv :: rb') (ia + 1) ib ?_ ha' hb (by omega)
              (by simp) hva hvb ?_ ja jb heq
            · simp only [List.length_cons] at hfuel ⊢; omega
            · intro _ ap bp hap hbp
              simp only [Nat.add_sub_cancel] at hap
              rw [hav] at hap
              rw [hbv] at hbp
              injection hap with hap1
              subst hap1
              injection hbp with hbp1
              subst hbp1
              have hfirst : ¬ (bv.first ≤ av.first) := fun hc => hdom ⟨hc, by omega⟩
              exact ⟨by omega, by omega⟩

/-- `find_first_non_dominated` specification. -/
theorem find_first_non_dominated_spec (a b : List ParetoValue)
    (hva : ValidFront a) (hvb : ValidFront b) :
    ∀ ja jb, find_first_non_dominated a b = (ja, jb) →
      ja ≤ a.length ∧
        (jb < b.length →
          (ja ≠ 0 → ∀ ap bp, a[ja - 1]? = some ap → b[jb]? = some bp →
            StrictStep ap bp) ∧
          (ja < a.length → ∀ ap bp, a[ja]? = some ap → b[jb]? = some bp →
            ap.second ≤ bp.second ∧
              (bp.second ≤ ap.second → ap.first < bp.first))) := by
  intro ja jb heq
  unfold find_first_non_dominated at heq
  by_cases hb : b.isEmpty
  · rw [if_pos hb] at heq
    injection heq with heq1 heq2
    subst heq1
    subst heq2
    exact ⟨le_rfl, fun hjb => absurd hjb (by omega)⟩
  · rw [if_neg hb] at heq
    have hbne : b ≠ [] := by
      intro h
      rw [h] at hb
      exact hb rfl
    exact fnd_loop_spec (a.length + b.length + 1) a b a b 0 0 (by omega) rfl rfl
      (by omega) hbne hva hvb (fun h0 => absurd rfl h0) ja jb heq

theorem trunc_loop_sublist (p : ParetoValue → Bool) :
    ∀ l, List.Sublist (trunc_loop p l) l := by
  intro l
  induction l with
  | nil => simp [trunc_loop]
  | cons x t ih =>
    cases t with
    | nil => simp [trunc_loop]
    | cons y r =>
      simp only [trunc_loop]
      by_cases hp : p y
      · rw [if_pos hp]
        exact ih.trans (List.sublist_cons_self x (y :: r))
      · rw [if_neg hp]

theorem validFront_trunc_loop (p : ParetoValue → Bool)
    {l : List ParetoValue} (h : ValidFront l) : ValidFront (trunc_loop p l) :=
  validFront_sublist (trunc_loop_sublist p l) h

/-- Validity of the untruncated merged segment built by
`ParetoFrontBuilder::merge` from two valid operand segments, in the
non-skip case (`jb` is a real index of `b`). -/
theorem merge_core_valid (a b : List ParetoValue)
    (hva : ValidFront a) (hvb : ValidFront b) (ja jb : Nat)
    (heq : find_first_non_dominated a b = (ja, jb)) (hjb : jb < b.length) :
    ValidFront (if a.length ≤ ja then a ++ b.drop jb
      else a.take ja ++ (b.drop jb).headI ::
        merge_mixed (a.drop ja) (b.drop (jb + 1)) (b.drop jb).headI.first) := by
  obtain ⟨hja_le, hspec⟩ := find_first_non_dominated_spec a b hva hvb ja jb heq
  obtain ⟨hjunction, hmiddle⟩ := hspec hjb
  have hdropb : b.drop jb = b[jb] :: b.drop (jb + 1) := List.drop_eq_getElem_cons hjb
  have hbp : b[jb]? = some b[jb] := List.getElem?_eq_getElem hjb
  have hbrel : ∀ y ∈ b.drop (jb + 1), StrictStep b[jb] y := by
    have hvd : ValidFront (b[jb] :: b.drop (jb + 1)) := by
      rw [← hdropb]
      exact validFront_drop hvb jb
    exact validFront_cons_rel hvd
  by_cases hcase : a.length ≤ ja
  · rw [if_pos hcase]
    have hja : ja = a.length := by omega
    subst hja
    apply pairwise_validFront
    rw [List.pairwise_append]
    refine ⟨validFront_pairwise hva, validFront_pairwise (validFront_drop hvb jb),
      ?_⟩
    intro x hx y hy
    obtain ⟨i, hi, rfl⟩ := List.mem_iff_getElem.mp hx
    have hane : a.length ≠ 0 := by omega
    have hap : a[a.length - 1]? = some a[a.length - 1] :=
      List.getElem?_eq_getElem (by omega)
    have hjx : StrictStep a[a.length - 1] b[jb] :=
      hjunction hane a[a.length - 1] b[jb] hap hbp
    have hxlast : a[i] = a[a.length - 1] ∨ StrictStep a[i] a[a.length - 1] := by
      rcases Nat.lt_or_ge i (a.length - 1) with h' | h'
      · exact Or.inr (validFront_getElem hva hi (by omega) h')
      · have : i = a.length - 1 := by omega
        subst this
        exact Or.inl rfl
    have hxb : StrictStep a[i] b[jb] := by
      rcases hxlast with h' | h'
      · rw [h']
        exact hjx
      · exact strictStep_trans h' hjx
    rw [hdropb] at hy
    rcases List.mem_cons.mp hy with rfl | hy'
    · exact hxb
    · exact strictStep_trans hxb (hbrel y hy')
  · rw [if_neg hcase]
    have hjalt : ja < a.length := by omega
    have hhead : (b.drop jb).headI = b[jb] := by
      rw [hdropb]
      rfl
    rw [hhead]
    have hap : a[ja]? = some a[ja] := List.getElem?_eq_getElem hjalt
    obtain ⟨hmid1, hmid2⟩ := hmiddle hjalt a[ja] b[jb] hap hbp
    have hdropa : a.drop ja = a[ja] :: a.drop (ja + 1) := List.drop_eq_getElem_cons hjalt
    have harel : ∀ y ∈ a.drop (ja + 1), StrictStep a[ja] y := by
      have hvd : ValidFront (a[ja] :: a.drop (ja + 1)) := by
        rw [← hdropa]
        exact validFront_drop hva ja
      exact validFront_cons_rel hvd
    obtain ⟨hmm_mem, hmm_valid⟩ := merge_mixed_spec (a.drop ja) (b.drop (jb + 1))
      (b[jb]).first (validFront_drop hva ja) (validFront_drop hvb (jb + 1))
    have hclaim : ∀ y ∈ merge_mixed (a.drop ja) (b.drop (jb + 1)) (b[jb]).first,
        StrictStep b[jb] y := by
      intro y hy
      obtain ⟨hg, hm⟩ := hmm_mem y hy
      refine ⟨hg, ?_⟩
      rcases hm with hy' | hy'
      · rw [hdropa] at hy'
        rcases List.mem_cons.mp hy' with rfl | hy''
        · by_cases hc : (b[jb]).second ≤ (a[ja]).second
          · have := hmid2 hc
            omega
          · omega
        · have := (harel y hy'').2
          omega
      · exact (hbrel y hy').2
    have hconsvalid : ValidFront (b[jb] ::
        merge_mixed (a.drop ja) (b.drop (jb + 1)) (b[jb]).first) :=
      validFront_cons_of hclaim hmm_valid
    apply pairwise_validFront
    rw [List.pairwise_append]
    refine ⟨validFront_pairwise (validFront_take hva ja),
      validFront_pairwise hconsvalid, ?_⟩
    intro x hx y hy
    obtain ⟨i, hi, rfl⟩ := List.mem_iff_getElem.mp hx
    have hilen : i < ja := by
      have := hi
      simp only [List.length_take] at this
      omega
    have htake : (a.take ja)[i] = a[i] := List.getElem_take ..
    have hjane : ja ≠ 0 := by omega
    have hal : a[ja - 1]? = some a[ja - 1] := List.getElem?_eq_getElem (by omega)
    have hjx : StrictStep a[ja - 1] b[jb] := hjunction hjane a[ja - 1] b[jb] hal hbp
    have hxal : a[i] = a[ja - 1] ∨ StrictStep a[i] a[ja - 1] := by
      rcases Nat.lt_or_ge i (ja - 1) with h' | h'
      · exact Or.inr (validFront_getElem hva (by omega) (by omega) h')
      · have : i = ja - 1 := by omega
        subst this
        exact Or.inl rfl
    have hxb : StrictStep (a.take ja)[i] b[jb] := by
      rw [htake]
      rcases hxal with h' | h'
      · rw [h']
        exact hjx
      · exact strictStep_trans h' hjx
    rcases List.mem_cons.mp hy with rfl | hy'
    · exact hxb
    · exact strictStep_trans hxb (hclaim y hy')

theorem push_empty_inv {B : ParetoFrontBuilder} (h : BuilderInv B) :
    BuilderInv B.push_empty := by
  obtain ⟨hchain, hsegs⟩ := h
  constructor
  · exact List.chain'_cons.mpr ⟨le_rfl, hchain⟩
  · intro l hl
    simp only [ParetoFrontBuilder.push_empty, segment_slices] at hl
    rcases List.mem_cons.mp hl with rfl | hl'
    · rw [List.drop_length]
      exact List.chain'_nil
    · rw [List.take_length] at hl'
      exact hsegs l hl'

theorem push_slice_inv {B : ParetoFrontBuilder} {v : List ParetoValue}
    (h : BuilderInv B) (hv : ValidFront v) : BuilderInv (B.push_slice v) := by
  obtain ⟨hchain, hsegs⟩ := h
  constructor
  · simp only [ParetoFrontBuilder.push_slice, List.length_append]
    exact List.chain'_cons.mpr ⟨Nat.le_add_right _ _, hchain⟩
  · intro l hl
    simp only [ParetoFrontBuilder.push_slice, segment_slices] at hl
    rcases List.mem_cons.mp hl with rfl | hl'
    · rw [List.drop_left]
      exact hv
    · rw [List.take_left B.buffer v] at hl'
      exact hsegs l hl'

theorem map_inv {B : ParetoFrontBuilder} {f : ParetoValue → ParetoValue}
    (h : BuilderInv B)
    (hf : ∀ x y, StrictStep x y → StrictStep (f x) (f y)) :
    BuilderInv (B.map f) := by
  obtain ⟨hchain, hsegs⟩ := h
  cases hseg : B.segments with
  | nil =>
    simp only [ParetoFrontBuilder.map, hseg]
    exact ⟨hchain, hsegs⟩
  | cons s rest =>
    have hs_le : s ≤ B.buffer.length := by
      rw [hseg] at hchain
      exact (List.chain'_cons.mp hchain).1
    have hlen_take : (B.buffer.take s).length = s := by
      rw [List.length_take]
      omega
    have h1 : (B.buffer.take s ++ (B.buffer.drop s).map f).drop s =
        (B.buffer.drop s).map f := by
      have := List.drop_left (B.buffer.take s) ((B.buffer.drop s).map f)
      rwa [hlen_take] at this
    have h2 : (B.buffer.take s ++ (B.buffer.drop s).map f).take s =
        B.buffer.take s := by
      have := List.take_left (B.buffer.take s) ((B.buffer.drop s).map f)
      rwa [hlen_take] at this
    constructor
    · simp only [ParetoFrontBuilder.map, hseg, List.length_append,
        List.length_take, List.length_map, List.length_drop]

      rw [hseg] at hchain
      have : min s B.buffer.length + (B.buffer.length - s) = B.buffer.length := by
        omega
      rw [this]
      exact hchain
    · simp only [ParetoFrontBuilder.map, hseg, segment_slices]
      intro l hl
      rw [h1, h2] at hl
      rcases List.mem_cons.mp hl with rfl | hl'
      · apply pairwise_validFront
        have hold : ValidFront (B.buffer.drop s) := by
          apply hsegs
          rw [hseg]
          exact List.mem_cons_self _ _
        exact (validFront_pairwise hold).map f (fun x y hxy => hf x y hxy)
      · apply hsegs
        rw [hseg]
        exact List.mem_cons_of_mem _ hl'

theorem save_inv {B : ParetoFrontBuilder} {id : ParetoFrontId}
    {B' : ParetoFrontBuilder} (h : BuilderInv B)
    (hs : B.save = some (id, B')) : BuilderInv B' := by
  obtain ⟨hchain, hsegs⟩ := h
  cases hseg : B.segments with
  | nil => simp [ParetoFrontBuilder.save, hseg] at hs
  | cons s rest =>
    simp only [ParetoFrontBuilder.save, hseg, Option.some.injEq] at hs
    injection hs with h1 h2
    subst h2
    rw [hseg] at hchain hsegs
    exact ⟨hchain, hsegs⟩

/-- Double truncation (head truncation, then tail truncation through the
reversal) preserves front validity. -/
theorem validFront_double_trunc (p q : ParetoValue → Bool)
    {c : List ParetoValue} (h : ValidFront c) :
    ValidFront ((trunc_loop q ((trunc_loop p c).reverse)).reverse) := by
  have hc2 := validFront_trunc_loop p h
  refine validFront_sublist ?_ hc2
  have hsub := trunc_loop_sublist q (trunc_loop p c).reverse
  simpa using hsub.reverse

/-- Validity of the fully truncated merged segment. -/
theorem merge_result_valid (maxF maxS : Nat) (a b : List ParetoValue)
    (hva : ValidFront a) (hvb : ValidFront b) (ja jb : Nat)
    (heq : find_first_non_dominated a b = (ja, jb)) (hjb : jb < b.length) :
    ValidFront ((trunc_loop (fun y => maxF ≤ y.first)
      ((trunc_loop (fun y => maxS ≤ y.second)
        (if a.length ≤ ja then a ++ b.drop jb
         else a.take ja ++ (b.drop jb).headI ::
           merge_mixed (a.drop ja) (b.drop (jb + 1))
             (b.drop jb).headI.first)).reverse)).reverse) :=
  validFront_double_trunc _ _ (merge_core_valid a b hva hvb ja jb heq hjb)

theorem merge_inv {B : ParetoFrontBuilder} (h : BuilderInv B) :
    BuilderInv B.merge := by
  obtain ⟨buf, segs, stor, mf, ms⟩ := B
  obtain ⟨hchain, hsegs⟩ := h
  match segs with
  | [] => exact ⟨hchain, hsegs⟩
  | [s] => exact ⟨hchain, hsegs⟩
  | sb :: sa :: rest =>
    have hsb_le : sb ≤ buf.length := (List.chain'_cons.mp hchain).1
    have hrest := (List.chain'_cons.mp hchain).2
    have hsa_le : sa ≤ sb := (List.chain'_cons.mp hrest).1
    have hrest2 := (List.chain'_cons.mp hrest).2
    have hvb : ValidFront (buf.drop sb) := hsegs _ (List.mem_cons_self _ _)
    have hva0 : ValidFront ((buf.take sb).drop sa) :=
      hsegs _ (List.mem_cons_of_mem _ (List.mem_cons_self _ _))
    have hslice_eq : (buf.take sb).drop sa = (buf.drop sa).take (sb - sa) :=
      List.drop_take sb sa buf
    have hva : ValidFront ((buf.drop sa).take (sb - sa)) := by
      rw [← hslice_eq]
      exact hva0
    simp only [ParetoFrontBuilder.merge]
    rcases habeq : find_first_non_dominated ((buf.drop sa).take (sb - sa))
      (buf.drop sb) with ⟨ja, jb⟩
    dsimp only
    by_cases hskip : (buf.drop sb).length ≤ jb
    · rw [if_pos hskip]
      constructor
      · simp only [List.length_take]
        have : min sb buf.length = sb := by omega
        rw [this]
        exact hrest
      · intro l hl
        exact hsegs l (List.mem_cons_of_mem _ hl)
    · rw [if_neg hskip]
      have hjb : jb < (buf.drop sb).length := by omega
      have hc3 := merge_result_valid mf ms _ _ hva hvb ja jb habeq hjb
      have hlen_take : (buf.take sa).length = sa := by
        rw [List.length_take]
        omega
      constructor
      · simp only [List.length_append, List.length_take]
        refine List.chain'_cons.mpr ⟨by omega, hrest2⟩
      · intro l hl
        simp only [segment_slices] at hl
        have h1 : ∀ (c : List ParetoValue), (buf.take sa ++ c).drop sa = c := by
          intro c
          have := List.drop_left (buf.take sa) c
          rwa [hlen_take] at this
        have h2 : ∀ (c : List ParetoValue), (buf.take sa ++ c).take sa = buf.take sa := by
          intro c
          have := List.take_left (buf.take sa) c
          rwa [hlen_take] at this
        rw [h1, h2] at hl
        rcases List.mem_cons.mp hl with rfl | hl'
        · exact hc3
        · apply hsegs
          have h3 : (buf.take sb).take sa = buf.take sa := by
            rw [List.take_take]
            congr 1
            omega
          simp only [segment_slices]
          refine List.mem_cons_of_mem _ (List.mem_cons_of_mem _ ?_)
          rwa [h3]

theorem step_storage_append {B B' : ParetoFrontBuilder} (h : BuilderStep B B') :
    ∃ es, B'.storage = B.storage ++ es := by
  cases h with
  | push_empty => exact ⟨[], by simp [ParetoFrontBuilder.push_empty]⟩
  | push_slice v hv =>
    exact ⟨[], by simp [ParetoFrontBuilder.push_slice]⟩
  | push_id id hid =>
    exact ⟨[], by simp [ParetoFrontBuilder.push_id, ParetoFrontBuilder.push_slice]⟩
  | map f hf =>
    refine ⟨[], ?_⟩
    rw [List.append_nil]
    cases hseg : B.segments <;> simp [ParetoFrontBuilder.map, hseg]
  | merge h2 =>
    refine ⟨[], ?_⟩
    rw [List.append_nil]
    obtain ⟨buf, segs, stor, mf, ms⟩ := B
    match segs with
    | [] => rfl
    | [s] => rfl
    | sb :: sa :: rest =>
      simp only [ParetoFrontBuilder.merge]
      split
      · rfl
      · rfl
  | save id B2 hs =>
    cases hseg : B.segments with
    | nil => simp [ParetoFrontBuilder.save, hseg] at hs
    | cons s rest =>
      simp only [ParetoFrontBuilder.save, hseg, Option.some.injEq] at hs
      injection hs with h1 h2
      subst h2
      exact ⟨B.buffer.drop s, rfl⟩

theorem goodId_mono {B B' : ParetoFrontBuilder} (h : BuilderStep B B')
    {id : ParetoFrontId} (hid : GoodId B id) :
    GoodId B' id ∧ B'.retrieve id = B.retrieve id := by
  obtain ⟨es, hes⟩ := step_storage_append h
  obtain ⟨hrange, hvalid⟩ := hid
  have hres : B'.retrieve id = B.retrieve id := by
    simp only [ParetoFrontBuilder.retrieve, hes]
    rw [List.drop_append_of_le_length (by omega)]
    rw [List.take_append_of_le_length]
    rw [List.length_drop]
    omega
  refine ⟨⟨?_, ?_⟩, hres⟩
  · rw [hes, List.length_append]
    omega
  · rw [hres]
    exact hvalid

theorem save_retrieve (B : ParetoFrontBuilder) (hinv : BuilderInv B)
    (top : List ParetoValue) (hpeek : B.peek = some top) :
    ∀ id B', B.save = some (id, B') → GoodId B' id ∧ B'.retrieve id = top := by
  cases hseg : B.segments with
  | nil => simp [ParetoFrontBuilder.peek, hseg] at hpeek
  | cons s rest =>
    intro id B' hs
    simp only [ParetoFrontBuilder.peek, hseg, Option.some.injEq] at hpeek
    simp only [ParetoFrontBuilder.save, hseg, Option.some.injEq] at hs
    injection hs with h1 h2
    subst h1
    subst h2
    have hs_le : s ≤ B.buffer.length := by
      have := hinv.1
      rw [hseg] at this
      exact (List.chain'_cons.mp this).1
    have hlen : (B.buffer.drop s).length = B.buffer.length - s :=
      List.length_drop s B.buffer
    have hret : ((B.storage ++ B.buffer.drop s).drop B.storage.length).take
        (B.buffer.length - s) = B.buffer.drop s := by
      rw [List.drop_left]
      rw [← hlen]
      exact List.take_length ..
    have hvtop : ValidFront (B.buffer.drop s) := by
      apply hinv.2
      rw [hseg]
      exact List.mem_cons_self _ _
    constructor
    · constructor
      · simp only [ParetoFrontBuilder.retrieve, List.length_append]
        omega
      · show ValidFront (ParetoFrontBuilder.retrieve _ _)
        simp only [ParetoFrontBuilder.retrieve]
        rw [hret]
        exact hvtop
    · simp only [ParetoFrontBuilder.retrieve]
      rw [hret]
      exact hpeek

theorem step_preserves_inv {B B' : ParetoFrontBuilder} (h : BuilderInv B)
    (hstep : BuilderStep B B') : BuilderInv B' := by
  cases hstep with
  | push_empty => exact push_empty_inv h
  | push_slice v hv => exact push_slice_inv h hv
  | push_id id hid => exact push_slice_inv h hid.2
  | map f hf => exact map_inv h hf
  | merge h2 => exact merge_inv h
  | save id B2 hs => exact save_inv h hs

theorem binary_search_loop_spec (front : List ParetoValue) (key : Nat)
    (hv : ValidFront front) :
    ∀ (fuel left right : Nat), right ≤ front.length → left ≤ right →
      right - left ≤ fuel →
      (∀ i (_ : i < front.length), i < left → (front[i]).first < key) →
      (∀ i (_ : i < front.length), right ≤ i → key ≤ (front[i]).first) →
      (∀ i (_ : i < front.length),
          i < binary_search_loop front key fuel left right →
          (front[i]).first < key) ∧
        (∀ i (_ : i < front.length),
            binary_search_loop front key fuel left right ≤ i →
            key ≤ (front[i]).first) ∧
        binary_search_loop front key fuel left right ≤ front.length := by
  intro fuel
  induction fuel with
  | zero =>
    intro left right hr hlr hfuel hbelow habove
    have : left = right := by omega
    subst this
    simp only [binary_search_loop]
    exact ⟨hbelow, fun i hi h => habove i hi h, by omega⟩
  | succ fuel ih =>
    intro left right hr hlr hfuel hbelow habove
    simp only [binary_search_loop]
    by_cases hcmp : left < right
    · rw [if_pos hcmp]
      have hmid : left + (right - left) / 2 < right := by omega
      have hmidlen : left + (right - left) / 2 < front.length := by omega
      rw [List.getD_eq_getElem front default hmidlen]
      split
      · rename_i hc
        have hklt : (front[left + (right - left) / 2]).first < key :=
          Nat.compare_eq_lt.mp hc
        refine ih (left + (right - left) / 2 + 1) right hr (by omega) (by omega)
          ?_ habove
        intro i hi hilt
        rcases Nat.lt_or_ge i (left + (right - left) / 2) with h' | h'
        · exact Nat.lt_trans (validFront_getElem hv hi hmidlen h').1 hklt
        · have : i = left + (right - left) / 2 := by omega
          subst this
          exact hklt
      · rename_i hc
        have hkgt : key < (front[left + (right - left) / 2]).first :=
          Nat.compare_eq_gt.mp hc
        refine ih left (left + (right - left) / 2) (by omega) (by omega) (by omega)
          hbelow ?_
        intro i hi hile
        rcases Nat.lt_or_ge (left + (right - left) / 2) i with h' | h'
        · exact Nat.le_of_lt
            (Nat.lt_trans hkgt (validFront_getElem hv hmidlen hi h').1)
        · have : i = left + (right - left) / 2 := by omega
          subst this
          exact Nat.le_of_lt hkgt
      · rename_i hc
        have hkeq : (front[left + (right - left) / 2]).first = key :=
          Nat.compare_eq_eq.mp hc
        refine ⟨?_, ?_, by omega⟩
        · intro i hi hilt
          have := (validFront_getElem hv hi hmidlen hilt).1
          omega
        · intro i hi hile
          rcases Nat.lt_or_ge (left + (right - left) / 2) i with h' | h'
          · have := (validFront_getElem hv hmidlen hi h').1
            omega
          · have : i = left + (right - left) / 2 := by omega
            subst this
            omega
    · rw [if_neg hcmp]
      have : left = right := by omega
      subst this
      exact ⟨hbelow, fun i hi h => habove i hi h, by omega⟩

theorem binary_search_by_key_first_spec (front : List ParetoValue) (key : Nat)
    (hv : ValidFront front) :
    (∀ i (_ : i < front.length),
        i < binary_search_by_key_first front key → (front[i]).first < key) ∧
      (∀ i (_ : i < front.length),
          binary_search_by_key_first front key ≤ i → key ≤ (front[i]).first) ∧
      binary_search_by_key_first front key ≤ front.length :=
  binary_search_loop_spec front key hv (front.length + 1) 0 front.length
    le_rfl (Nat.zero_le _) (by omega)
    (fun i _ h => absurd h (Nat.not_lt_zero i))
    (fun i hi h => absurd hi (Nat.not_lt.mpr h))

theorem find?_eq_getElem_of_first {β : Type} (p : β → Bool) :
    ∀ (l : List β) (r : Nat) (hr : r < l.length),
      (∀ i (_ : i < l.length), i < r → p l[i] = false) → p l[r] = true →
      l.find? p = some l[r] := by
  intro l
  induction l with
  | nil => intro r hr; exact absurd hr (Nat.not_lt_zero r)
  | cons x t ih =>
    intro r hr hbelow hp
    cases r with
    | zero => exact List.find?_cons_of_pos t hp
    | succ r =>
      have hx : p x = false := hbelow 0 (by omega) (by omega)
      rw [List.find?_cons_of_neg t (by simp [hx])]
      exact ih r (by simpa using hr)
        (fun i hi hir => hbelow (i + 1) (by omega) (by omega)) hp

/-- C7: on a valid memoized front, the binary-search query of
`quality_upper_bound` returns exactly what the specification's rule
states: `min(max_quality, quality + second)` at the first front point
covering the missing progress, and `0` when the front is empty or no
point covers it. -/
theorem quality_upper_bound_query_spec (max_progress max_quality : Nat)
    (front : List ParetoValue) (progress quality : Nat)
    (hv : ValidFront front) (hq : max_quality ≤ 65535) :
    quality_upper_bound_query max_progress max_quality front progress quality =
      quality_upper_bound_rule max_progress max_quality front progress quality := by
  simp only [quality_upper_bound_query, quality_upper_bound_rule]
  cases hlast : front.getLast? with
  | none =>
    have : front = [] := List.getLast?_eq_none_iff.mp hlast
    subst this
    rfl
  | some element =>
    dsimp only
    by_cases hlt : element.first < max_progress - progress
    · rw [if_pos hlt]
      have hnone : front.find?
          (fun v => decide (max_progress - progress ≤ v.first)) = none := by
        rw [List.find?_eq_none]
        intro x hx
        have := validFront_le_getLast hv hlast x hx
        simp only [decide_eq_true_eq]
        omega
      rw [hnone]
    · rw [if_neg hlt]
      have hcov : max_progress - progress ≤ element.first := by omega
      have hne' : 0 < front.length := by
        cases front with
        | nil => exact absurd hlast (by simp)
        | cons x t => simp
      have hel : front[front.length - 1] = element := by
        have h1 : front.getLast? = front[front.length - 1]? :=
          List.getLast?_eq_getElem? front
        rw [hlast] at h1
        have h2 := List.getElem?_eq_getElem (l := front)
          (n := front.length - 1) (by omega)
        rw [h2] at h1
        exact ((Option.some.injEq _ _).mp h1.symm)
      obtain ⟨hbelow, habove, hlen⟩ :=
        binary_search_by_key_first_spec front (max_progress - progress) hv
      have hrlen : binary_search_by_key_first front (max_progress - progress) <
          front.length := by
        by_contra hge
        have hlt1 := hbelow (front.length - 1) (by omega) (by omega)
        rw [hel] at hlt1
        omega
      have hfind : front.find?
          (fun v => decide (max_progress - progress ≤ v.first)) =
          some front[binary_search_by_key_first front (max_progress - progress)] := by
        apply find?_eq_getElem_of_first
        · intro i hi hir
          simp only [decide_eq_false_iff_not, Nat.not_le]
          exact hbelow i hi hir
        · simp only [decide_eq_true_eq]
          exact habove _ hrlen le_rfl
      rw [hfind, List.getD_eq_getElem front default hrlen]
      simp only [saturating_add_u16]
      omega

theorem logWF_append {α : Type} {log : List (Option Nat × Option α)}
    (h : LogWF log) {id : Nat} {a : α} (hid : id < log.length) :
    LogWF (log ++ [(some id, some a)]) := by
  intro i p a' hga
  rcases Nat.lt_or_ge i log.length with hi | hi
  · rw [List.getD_append _ _ _ _ hi] at hga
    exact h i p a' hga
  · rcases Nat.lt_or_ge i (log.length + 1) with hi2 | hi2
    · have hieq : i = log.length := by omega
      subst hieq
      rw [List.getD_append_right _ _ _ _ hi] at hga
      simp only [Nat.sub_self, List.getD_cons_zero] at hga
      injection hga with h1 h2
      injection h1 with h1
      omega
    · have : (log ++ [(some id, some a)]).getD i (none, none) = (none, none) := by
        apply List.getD_eq_default
        simp only [List.length_append, List.length_cons, List.length_nil]
        omega
      rw [this] at hga
      injection hga with h1 h2
      exact absurd h1 (by simp)

theorem backtrack_loop_append {α : Type} {log es : List (Option Nat × Option α)}
    (h : LogWF log) :
    ∀ (fuel id : Nat), id < log.length →
      backtrack_loop (log ++ es) fuel id = backtrack_loop log fuel id := by
  intro fuel
  induction fuel with
  | zero => intro id _; rfl
  | succ fuel ih =>
    intro id hid
    simp only [backtrack_loop]
    rw [List.getD_append _ _ _ _ hid]
    rcases hg : log.getD id (none, none) with ⟨(_ | p), (_ | a)⟩
    · rfl
    · rfl
    · rfl
    · have hp : p < id := h id p a hg
      dsimp only
      rw [ih p (by omega)]

theorem backtrack_loop_fuel {α : Type} {log : List (Option Nat × Option α)}
    (h : LogWF log) :
    ∀ (id fuel : Nat), id < fuel →
      backtrack_loop log fuel id = backtrack_loop log (id + 1) id := by
  intro id
  induction id using Nat.strong_induction_on with
  | _ id ih =>
    intro fuel hfuel
    cases fuel with
    | zero => omega
    | succ fuel =>
      simp only [backtrack_loop]
      rcases hg : log.getD id (none, none) with ⟨(_ | p), (_ | a)⟩
      · rfl
      · rfl
      · rfl
      · have hp : p < id := h id p a hg
        dsimp only
        rw [ih p hp fuel (by omega), ih p hp id (by omega)]

theorem backtrack_append_last {α : Type} {log : List (Option Nat × Option α)}
    (h : LogWF log) {id : Nat} {a : α} (hid : id < log.length) :
    backtrack (log ++ [(some id, some a)]) log.length =
      backtrack log id ++ [a] := by
  have hg : (log ++ [(some id, some a)]).getD log.length (none, none) =
      (some id, some a) := by
    rw [List.getD_append_right _ _ _ _ le_rfl]
    simp
  have h1 : backtrack_loop (log ++ [(some id, some a)]) (log.length + 1)
      log.length =
      backtrack_loop (log ++ [(some id, some a)]) log.length id ++ [a] := by
    simp only [backtrack_loop, hg]
  unfold backtrack
  rw [h1, backtrack_loop_append h log.length id hid,
    backtrack_loop_fuel h id log.length hid]

theorem backtrack_append_stable {α : Type} {log es : List (Option Nat × Option α)}
    (h : LogWF log) {id : Nat} (hid : id < log.length) :
    backtrack (log ++ es) id = backtrack log id := by
  unfold backtrack
  exact backtrack_loop_append h (id + 1) id hid

theorem replay_append {σ α : Type} (m : SearchModel σ α) :
    ∀ (acts : List α) (s0 : σ) (a : α),
      replay m s0 (acts ++ [a]) =
        match replay m s0 acts with
        | some t => m.use_action t a
        | none => none := by
  intro acts
  induction acts with
  | nil =>
    intro s0 a
    cases h : m.use_action s0 a <;> simp [replay, h]
  | cons x rest ih =>
    intro s0 a
    simp only [List.cons_append, replay]
    cases m.use_action s0 x with
    | none => rfl
    | some s' => exact ih s' a

theorem expand_node_inv {σ α : Type} (m : SearchModel σ α) (s0 st : σ)
    (id : Nat) :
    ∀ (acts : List α) (ls : LoopState σ α),
      SearchInv m s0 ls → id < ls.log.length →
      replay m s0 (backtrack ls.log id) = some st →
      SearchInv m s0 (expand_node m st id acts ls) := by
  intro acts
  induction acts with
  | nil =>
    intro ls hinv _ _
    exact hinv
  | cons a rest ih =>
    intro ls hinv hid hreplay
    simp only [expand_node]
    cases hua : m.use_action st a with
    | none => exact ih ls hinv hid hreplay
    | some child =>
      dsimp only
      by_cases hfin : m.is_final child = true
      · rw [if_neg (by simp [hfin])]
        by_cases hprog : m.max_progress ≤ m.progress child
        · rw [if_pos hprog]
          by_cases hacc : (ls.solution.isNone || m.accept ls.solution child) = true
          · rw [if_pos hacc]
            refine ih _ ?_ hid hreplay
            obtain ⟨hwf, hfr, hsol⟩ := hinv
            refine ⟨hwf, hfr, ?_⟩
            intro acts' hacts'
            injection hacts' with hacts'
            subst hacts'
            refine ⟨child, ?_, hfin, hprog⟩
            rw [replay_append, hreplay]
            exact hua
          · rw [if_neg hacc]
            exact ih ls hinv hid hreplay
        · rw [if_neg hprog]
          exact ih ls hinv hid hreplay
      · rw [if_pos (by simp [hfin])]
        by_cases hcf : m.can_finish child = true
        · rw [if_pos hcf]
          obtain ⟨hwf, hfr, hsol⟩ := hinv
          have hwf' : LogWF (ls.log ++ [(some id, some a)]) := logWF_append hwf hid
          have hinv' : SearchInv m s0
              { ls with frontier := ls.frontier ++ [(child, ls.log.length)],
                        log := ls.log ++ [(some id, some a)] } := by
            refine ⟨hwf', ?_, fun acts' hacts' => hsol acts' hacts'⟩
            intro x hx
            rcases List.mem_append.mp hx with hx' | hx'
            · obtain ⟨hxlt, hxrep⟩ := hfr x hx'
              refine ⟨by simp only [List.length_append]; omega, ?_⟩
              rw [backtrack_append_stable hwf hxlt]
              exact hxrep
            · rw [List.mem_singleton] at hx'
              subst hx'
              refine ⟨by simp, ?_⟩
              rw [backtrack_append_last hwf hid, replay_append, hreplay]
              exact hua
          refine ih _ hinv' ?_ ?_
          · simp only [List.length_append]
            omega
          · show replay m s0 (backtrack (ls.log ++ [(some id, some a)]) id) = some st
            rw [backtrack_append_stable hwf hid]
            exact hreplay
        · rw [if_neg hcf]
          exact ih ls hinv hid hreplay

theorem search_loop_sound {σ α : Type} (m : SearchModel σ α) (sel : Nat → Nat)
    (s0 : σ) :
    ∀ (fuel : Nat) (ls : LoopState σ α), SearchInv m s0 ls →
      ∀ acts, search_loop m sel fuel ls = some acts →
        ∃ t, replay m s0 acts = some t ∧ m.is_final t = true ∧
          m.max_progress ≤ m.progress t := by
  intro fuel
  induction fuel with
  | zero =>
    intro ls hinv acts hacts
    exact hinv.2.2 acts hacts
  | succ fuel ih =>
    intro ls hinv acts hacts
    simp only [search_loop] at hacts
    cases hfr : ls.frontier with
    | nil =>
      rw [hfr] at hacts
      exact hinv.2.2 acts hacts
    | cons x rest =>
      rw [hfr] at hacts
      have hilen : sel fuel % (x :: rest).length < (x :: rest).length :=
        Nat.mod_lt _ (by simp)
      have hnm : (x :: rest).getD (sel fuel % (x :: rest).length) x ∈
          ls.frontier := by
        rw [hfr, List.getD_eq_getElem _ _ hilen]
        exact List.getElem_mem hilen
      obtain ⟨hidlt, hrep⟩ := hinv.2.1 _ hnm
      have hinv_mid : SearchInv m s0
          { ls with frontier := (x :: rest).eraseIdx (sel fuel % (x :: rest).length) } := by
        obtain ⟨hwf, hfrr, hsol⟩ := hinv
        refine ⟨hwf, ?_, hsol⟩
        intro y hy
        apply hfrr
        rw [hfr]
        exact (List.eraseIdx_sublist (x :: rest)
          (sel fuel % (x :: rest).length)).subset hy
      have hinv' := expand_node_inv m s0 _ _
        (m.search_actions ((x :: rest).getD (sel fuel % (x :: rest).length) x).1)
        _ hinv_mid hidlt hrep
      exact ih _ hinv' acts hacts

/-- C2: whenever `solve` returns an action sequence, replaying that
sequence from the start state through the simulator transition succeeds
at every step and ends in a final state whose progress reaches the
target. -/
theorem solver_roundtrip_valid {σ α : Type} (m : SearchModel σ α)
    (sel : Nat → Nat) (fuel : Nat) (s0 : σ) (acts : List α)
    (h : solve m sel fuel s0 = some acts) :
    ∃ t, replay m s0 acts = some t ∧ m.is_final t = true ∧
      m.max_progress ≤ m.progress t := by
  unfold solve at h
  by_cases hcf : m.can_finish s0 = true
  · rw [if_pos hcf] at h
    unfold do_solve at h
    refine search_loop_sound m sel s0 fuel _ ⟨?_, ?_, ?_⟩ acts h
    · intro i p a hg
      rcases i with _ | i
      · simp [List.getD] at hg
      · simp [List.getD] at hg
    · intro x hx
      rw [List.mem_singleton] at hx
      subst hx
      exact ⟨by simp, rfl⟩
    · intro acts' hacts'
      exact absurd hacts' (by simp)
  · rw [if_neg hcf] at h
    exact absurd h (by simp)

/-- Witness for C2 on the one-action toy model. -/
theorem solver_roundtrip_valid_witness :
    solve toy_model (fun _ => 0) 2 0 = some [()] ∧
      ∃ t, replay toy_model 0 [()] = some t ∧ toy_model.is_final t = true ∧
        toy_model.max_progress ≤ toy_model.progress t :=
  ⟨by decide, solver_roundtrip_valid toy_model (fun _ => 0) 2 0 [()] (by decide)⟩

/-- C6: starting from a builder satisfying the segment invariant, any
sequence of `push_empty`/`push_slice`/`push_id`/`map`/`merge`/`save`
operations on valid inputs preserves it — every segment is strictly
increasing in `first` and strictly decreasing in `second`; previously
saved fronts retrieve unchanged; and saving the top segment yields an id
that retrieves exactly that segment. -/
theorem pareto_builder_invariant_roundtrip (B B' : ParetoFrontBuilder)
    (hB : BuilderInv B) (hreach : BuilderReach B B') :
    BuilderInv B' ∧
      (∀ l ∈ segment_slices B'.buffer B'.segments, ValidFront l) ∧
      (∀ id, GoodId B id → GoodId B' id ∧ B'.retrieve id = B.retrieve id) ∧
      (∀ top, B'.peek = some top → ∀ id B'', B'.save = some (id, B'') →
        GoodId B'' id ∧ B''.retrieve id = top) := by
  induction hreach with
  | refl =>
    exact ⟨hB, hB.2, fun id hid => ⟨hid, rfl⟩,
      fun top hp id B'' hs => save_retrieve B hB top hp id B'' hs⟩
  | tail hsteps hstep ih =>
    obtain ⟨hInvC, -, hGoodC, -⟩ := ih
    have hInv' := step_preserves_inv hInvC hstep
    refine ⟨hInv', hInv'.2, ?_,
      fun top hp id B'' hs => save_retrieve _ hInv' top hp id B'' hs⟩
    intro id hid
    obtain ⟨hidC, hretC⟩ := hGoodC id hid
    obtain ⟨hidD, hretD⟩ := goodId_mono hstep hidC
    refine ⟨hidD, ?_⟩
    rw [hretD, hretC]

/-- Witness for C6: one `push_slice` of a valid sample front on a fresh
builder. -/
theorem pareto_builder_invariant_roundtrip_witness :
    BuilderInv (ParetoFrontBuilder.new 1000 2000) ∧
      (BuilderInv ((ParetoFrontBuilder.new 1000 2000).push_slice sample_front) ∧
        (∀ l ∈ segment_slices
            ((ParetoFrontBuilder.new 1000 2000).push_slice sample_front).buffer
            ((ParetoFrontBuilder.new 1000 2000).push_slice sample_front).segments,
          ValidFront l) ∧
        (∀ id, GoodId (ParetoFrontBuilder.new 1000 2000) id →
          GoodId ((ParetoFrontBuilder.new 1000 2000).push_slice sample_front) id ∧
            ((ParetoFrontBuilder.new 1000 2000).push_slice sample_front).retrieve id =
              (ParetoFrontBuilder.new 1000 2000).retrieve id) ∧
        (∀ top,
          ((ParetoFrontBuilder.new 1000 2000).push_slice sample_front).peek =
              some top →
          ∀ id B'',
            ((ParetoFrontBuilder.new 1000 2000).push_slice sample_front).save =
                some (id, B'') →
            GoodId B'' id ∧ B''.retrieve id = top)) :=
  ⟨by decide,
   pareto_builder_invariant_roundtrip (ParetoFrontBuilder.new 1000 2000)
     ((ParetoFrontBuilder.new 1000 2000).push_slice sample_front) (by decide)
     (Relation.ReflTransGen.single
       (BuilderStep.push_slice (ParetoFrontBuilder.new 1000 2000) sample_front
         (by decide)))⟩

/-- Witness for C7 on a sample valid front. -/
theorem quality_upper_bound_query_spec_witness :
    ValidFront sample_front ∧ (1000 : Nat) ≤ 65535 ∧
      quality_upper_bound_query 1000 1000 sample_front 150 10 =
        quality_upper_bound_rule 1000 1000 sample_front 150 10 :=
  ⟨by decide, by decide,
   quality_upper_bound_query_spec 1000 1000 sample_front 150 10 (by decide)
     (by decide)⟩

/-- C5: on a builder with caps `(1000, 2000)`, pushing the segment
`[(1100,2300),(1200,2200),(1300,2100)]`, then the segment
`[(1050,2270),(1150,2250),(1250,2150),(1300,2050)]`, then merging leaves
exactly the single-point segment `[(1300, 2100)]` on top (the
`test_merge_truncate` scenario). -/
theorem pareto_merge_truncate_concrete :
    ((((ParetoFrontBuilder.new 1000 2000).push_slice
        [⟨1100, 2300⟩, ⟨1200, 2200⟩, ⟨1300, 2100⟩]).push_slice
        [⟨1050, 2270⟩, ⟨1150, 2250⟩, ⟨1250, 2150⟩, ⟨1300, 2050⟩]).merge).peek =
      some [⟨1300, 2100⟩] := by
  decide

/-- C4: when the finish solver rejects the start state, `solve` returns
the no-solution result at once — independently of the search parameters,
so the main search is never consulted. -/
theorem solve_no_solution_immediate {σ α : Type} (m : SearchModel σ α)
    (sel : Nat → Nat) (fuel : Nat) (s0 : σ) (h : m.can_finish s0 = false) :
    solve m sel fuel s0 = none ∧
      ∀ (sel' : Nat → Nat) (fuel' : Nat), solve m sel' fuel' s0 = none := by
  refine ⟨?_, fun sel' fuel' => ?_⟩ <;> simp [solve, h]

/-- Witness for C4 at the toy model whose finish solver rejects every
state. -/
theorem solve_no_solution_immediate_witness :
    toy_model_unfinishable.can_finish 0 = false ∧
      (solve toy_model_unfinishable (fun _ => 0) 5 0 = none ∧
        ∀ (sel' : Nat → Nat) (fuel' : Nat),
          solve toy_model_unfinishable sel' fuel' 0 = none) :=
  ⟨rfl, solve_no_solution_immediate toy_model_unfinishable (fun _ => 0) 5 0 rfl⟩

/-- C10: whenever `use_action_combo` succeeds, the returned state's combo
slot is reset to `None`; and when the returned state is classified
progress-only, its unreliable quality, inner quiet, innovation, great
strides and guard are all zero and quick innovation is unavailable. -/
theorem use_action_combo_reset_strip (settings : SolverSettings)
    (ua : SimulationState → Action → Option SimulationState)
    (state : SimulationState) (combo : ActionCombo) (s' : SimulationState)
    (h : use_action_combo settings ua state combo = some s') :
    s'.combo = Combo.None ∧
      (is_progress_only_state settings s' = true →
        s'.unreliable_quality = 0 ∧ s'.effects.inner_quiet = 0 ∧
          s'.effects.innovation = 0 ∧ s'.effects.great_strides = 0 ∧
          s'.effects.guard = 0 ∧ s'.effects.quick_innovation_available = false) := by
  unfold use_action_combo at h
  cases happ : apply_actions ua state combo.actions with
  | none => rw [happ] at h; exact absurd h (by simp)
  | some s0 =>
    rw [happ] at h
    simp only [Option.some.injEq] at h
    by_cases hpo : is_progress_only_state settings s0 = true
    · rw [if_pos hpo] at h
      subst h
      exact ⟨rfl, fun _ => ⟨rfl, rfl, rfl, rfl, rfl, rfl⟩⟩
    · rw [if_neg hpo] at h
      subst h
      refine ⟨rfl, fun hp => absurd ?_ hpo⟩
      exact hp

/-- Witness for C10: the identity transition applied to the fresh state
through the single-action combo `Observe`. -/
theorem use_action_combo_reset_strip_witness :
    use_action_combo
        ⟨effect_test_settings, true, false⟩ (fun s _ => some s)
        (SimulationState.new effect_test_settings) (ActionCombo.Single Action.Observe) =
      some { SimulationState.new effect_test_settings with combo := Combo.None } ∧
      ({ SimulationState.new effect_test_settings with
          combo := Combo.None } : SimulationState).combo = Combo.None :=
  ⟨by decide,
   (use_action_combo_reset_strip ⟨effect_test_settings, true, false⟩
      (fun s _ => some s) (SimulationState.new effect_test_settings)
      (ActionCombo.Single Action.Observe) _ (by decide)).1⟩

/-- C9: an action of zero durability cost used while Trained Perfection
is `Active` leaves the effect `Active`; concretely, from the effect-test
start state with Trained Perfection active, `BasicSynthesis` yields
progress 120 at unchanged durability and CP and toggles the effect to
`Unavailable`, while `Observe` leaves the effect `Active`. -/
theorem trained_perfection_preservation :
    (∀ (settings : SimSettings) (s : SimulationState) (a : ActionDef)
        (s' : SimulationState),
        s.effects.trained_perfection = SingleUse.Active →
        effective_durability_cost s.effects a = 0 →
        use_action settings s a = some s' →
        s'.effects.trained_perfection = SingleUse.Active) ∧
      (use_action effect_test_settings trained_perfection_start
          basic_synthesis).map
          (fun s => (s.progress, s.quality, s.durability, s.cp)) =
        some (120, 0, 60, 250) ∧
      (use_action effect_test_settings trained_perfection_start
          basic_synthesis).map (fun s => s.effects.trained_perfection) =
        some SingleUse.Unavailable ∧
      (use_action effect_test_settings trained_perfection_start
          observe).map (fun s => s.effects.trained_perfection) =
        some SingleUse.Active := by
  refine ⟨?_, by decide, by decide, by decide⟩
  intro settings s a s' htp hcost h
  unfold use_action at h
  split at h
  · exact absurd h (by simp)
  split at h
  · exact absurd h (by simp)
  simp only [Option.some.injEq] at h
  subst h
  simp [Effects.tick_down, hcost, htp]

/-- Witness for C9's general conjunct, at the `Observe` step of the
concrete scenario. -/
theorem trained_perfection_preservation_witness :
    trained_perfection_start.effects.trained_perfection = SingleUse.Active ∧
      effective_durability_cost trained_perfection_start.effects observe = 0 ∧
      (⟨0, 0, 0, 60, 243,
          ⟨0, 0, 0, 0, 0, 0, 0, 0, SingleUse.Unused, SingleUse.Active, true⟩,
          Combo.None⟩ : SimulationState).effects.trained_perfection =
        SingleUse.Active :=
  ⟨by decide, by decide,
   trained_perfection_preservation.1 effect_test_settings
     trained_perfection_start observe
     ⟨0, 0, 0, 60, 243,
       ⟨0, 0, 0, 0, 0, 0, 0, 0, SingleUse.Unused, SingleUse.Active, true⟩,
       Combo.None⟩
     (by decide) (by decide) (by decide)⟩

end Raphael
